import Mathlib

/-!
Shallow embedding of `src/vidp_alert.py` (the canonical variant of the
VIDP ATFM alert script) together with proofs about the properties the
specification claims.

Modelling conventions:
* Python strings are modelled as `List Char` (`Line`); regex character
  classes are modelled over ASCII, which is the alphabet the script works
  with (markers, callsigns, URLs).
* External effects (HTTP, the PDF renderer, SMTP, the filesystem) are
  modelled as explicit inputs: the list of anchor hrefs of the listing
  page, a `download` oracle mapping a URL to either a network failure or
  a PDF value, a `deliver` flag for the SMTP transport, and an optional
  parsed-JSON file content for the seen store.
* A raised and uncaught Python exception is modelled as `Except.error` /
  a `false` "completed" flag; a caught one by the code path the handler
  takes.
-/

/-- Python strings are modelled as lists of characters. -/
abbrev Line := List Char

/-- ASCII decimal digit, the model of the regex class `\d` (`0`-`9`). -/
def isDigitB (c : Char) : Bool :=
  decide (48 ≤ c.toNat) && decide (c.toNat ≤ 57)

/-- ASCII uppercase letter, the model of the regex class `[A-Z]`. -/
def isUpperB (c : Char) : Bool :=
  decide (65 ≤ c.toNat) && decide (c.toNat ≤ 90)

/-- ASCII lowercase letter (`a`-`z`). -/
def isLowerB (c : Char) : Bool :=
  decide (97 ≤ c.toNat) && decide (c.toNat ≤ 122)

/-- Word character for the regex boundary `\b`: letter, digit or `_`
(ASCII model of Python's `\w`). -/
def isWordCharB (c : Char) : Bool :=
  isUpperB c || isLowerB c || isDigitB c || decide (c.toNat = 95)

/-- ASCII model of Python `str.upper()` applied to one character. -/
def pyUpperChar (c : Char) : Char :=
  if 97 ≤ c.toNat ∧ c.toNat ≤ 122 then Char.ofNat (c.toNat - 32) else c

/-- ASCII model of Python `str.lower()` applied to one character. -/
def pyLowerChar (c : Char) : Char :=
  if 65 ≤ c.toNat ∧ c.toNat ≤ 90 then Char.ofNat (c.toNat + 32) else c

/-- `line.upper()`. -/
def pyUpperLine (l : Line) : Line := l.map pyUpperChar

/-- `href.lower()`. -/
def toLowerLine (l : Line) : Line := l.map pyLowerChar

/-- Whitespace stripped by Python `str.strip()` (ASCII part). -/
def isPySpace (c : Char) : Bool :=
  decide (c.toNat = 32) || decide (c.toNat = 9) || decide (c.toNat = 10) ||
    decide (c.toNat = 13) || decide (c.toNat = 11) || decide (c.toNat = 12)

/-- `href.strip()`: drop whitespace from both ends. -/
def trimLine (l : Line) : Line :=
  ((l.dropWhile isPySpace).reverse.dropWhile isPySpace).reverse

/-- `p` is a prefix of `l` (executable). -/
def isPrefixB : Line → Line → Bool
  | [], _ => true
  | _ :: _, [] => false
  | a :: as, b :: bs => if a = b then isPrefixB as bs else false

/-- `p` is a suffix of `l` (executable); model of `str.endswith`. -/
def isSuffixB (p l : Line) : Bool := isPrefixB p.reverse l.reverse

/-- `p` occurs as a contiguous substring of `l`; model of Python's
`p in l` on strings. -/
def isInfixB (p : Line) : Line → Bool
  | [] => isPrefixB p []
  | c :: rest => isPrefixB p (c :: rest) || isInfixB p rest

/-!
## The callsign regex

`src/vidp_alert.py` line 85:
`pattern_callsign = re.compile(r"\b([A-Z]{2,3}\d{2,4}[A-Z]?)\b")`,
used through `pattern_callsign.findall(window)` (line 98).

The matcher below reproduces the backtracking regex engine on this
pattern: at a given start position the engine requires a word boundary,
then tries the quantifiers greedily - 3 then 2 uppercase letters, 4 then
3 then 2 digits, the optional trailing letter present then absent - and
finally requires a word boundary after the match.  `re.findall` scans
left to right and resumes after the end of each match.
-/

/-- Take exactly `n` leading characters, all satisfying `p`
(one exact-repetition step of the regex engine). -/
def takeRun (p : Char → Bool) (n : Nat) (l : Line) : Option Line :=
  if (l.take n).length = n ∧ (l.take n).all p = true then some (l.take n) else none

/-- The closing `\b` of the pattern: the next character, if any, is not a
word character.  (Every character the pattern consumes is a word
character, so the boundary holds exactly in this case.) -/
def boundaryAfter : Line → Bool
  | [] => true
  | c :: _ => !isWordCharB c

/-- One backtracking alternative of `[A-Z]{2,3}\d{2,4}[A-Z]?\b`:
exactly `a` uppercase letters, then `d` digits, then `o` uppercase
letters, then a word boundary. -/
def attemptCallsign (a d o : Nat) (l : Line) : Option Line :=
  match takeRun isUpperB a l with
  | none => none
  | some us =>
    match takeRun isDigitB d (l.drop a) with
    | none => none
    | some ds =>
      match takeRun isUpperB o ((l.drop a).drop d) with
      | none => none
      | some os =>
        if boundaryAfter (((l.drop a).drop d).drop o) then some (us ++ ds ++ os)
        else none

/-- All backtracking alternatives of the quantifiers, in the order a
greedy engine tries them. -/
def attemptsList (l : Line) : List (Option Line) :=
  [attemptCallsign 3 4 1 l, attemptCallsign 3 4 0 l,
   attemptCallsign 3 3 1 l, attemptCallsign 3 3 0 l,
   attemptCallsign 3 2 1 l, attemptCallsign 3 2 0 l,
   attemptCallsign 2 4 1 l, attemptCallsign 2 4 0 l,
   attemptCallsign 2 3 1 l, attemptCallsign 2 3 0 l,
   attemptCallsign 2 2 1 l, attemptCallsign 2 2 0 l]

/-- First successful alternative, if any. -/
def firstSome : List (Option Line) → Option Line
  | [] => none
  | some x :: _ => some x
  | none :: rest => firstSome rest

/-- Attempt a match of `\b([A-Z]{2,3}\d{2,4}[A-Z]?)\b` starting at the
head of `l`; `prev` records whether the character immediately before `l`
is a word character (false at the start of the string).  The leading
`\b` requires `prev = false` because the first pattern character is a
word character. -/
def tryMatch (prev : Bool) (l : Line) : Option Line :=
  if prev then none else firstSome (attemptsList l)

/-- `re.findall` scan: at each position try a match; on success emit the
captured group and resume after it, otherwise advance one character.
The `fuel` argument only bounds the recursion (each step consumes at
least one character, so `fuel = length of the input` is always enough);
it keeps the definition structurally recursive and hence kernel
reducible. -/
def reFindallFuel : Nat → Bool → Line → List Line
  | _, _, [] => []
  | 0, _, _ :: _ => []
  | fuel + 1, prev, c :: rest =>
    match tryMatch prev (c :: rest) with
    | some t => t :: reFindallFuel fuel true (rest.drop (t.length - 1))
    | none => reFindallFuel fuel (isWordCharB c) rest

/-- `pattern_callsign.findall(s)` (source line 98). -/
def reFindall (s : Line) : List Line := reFindallFuel s.length false s

/-- The maximal word runs of a string: `prev` records whether the
character before the remaining input is a word character.  At the start
of each run the full run is emitted. -/
def wordsAux : Bool → Line → List Line
  | _, [] => []
  | prev, c :: rest =>
    if isWordCharB c then
      if prev then wordsAux true rest
      else (c :: rest.takeWhile isWordCharB) :: wordsAux true rest
    else wordsAux false rest

/-- The whole words (maximal word-character runs) of a string. -/
def wordsOf (s : Line) : List Line := wordsAux false s

/-- The token shape accepted by the source pattern
`[A-Z]{2,3}\d{2,4}[A-Z]?` when anchored to a whole word: 2-3 uppercase
letters, then 2-4 digits, then an optional trailing uppercase letter. -/
def callsignShape (t : Line) : Bool :=
  let us := t.takeWhile isUpperB
  let r1 := t.drop us.length
  let ds := r1.takeWhile isDigitB
  let r2 := r1.drop ds.length
  decide (2 ≤ us.length) && decide (us.length ≤ 3) &&
    decide (2 ≤ ds.length) && decide (ds.length ≤ 4) &&
    (match r2 with
     | [] => true
     | [c] => isUpperB c
     | _ :: _ :: _ => false)

/-- Modelled from the spec (claim C4's words, not from the source): the
claimed callsign shape with one to four digits -
2-3 uppercase letters, then 1-4 digits, then an optional trailing
uppercase letter, as a whole token. -/
def specCallsignShape (t : Line) : Bool :=
  let us := t.takeWhile isUpperB
  let r1 := t.drop us.length
  let ds := r1.takeWhile isDigitB
  let r2 := r1.drop ds.length
  decide (2 ≤ us.length) && decide (us.length ≤ 3) &&
    decide (1 ≤ ds.length) && decide (ds.length ≤ 4) &&
    (match r2 with
     | [] => true
     | [c] => isUpperB c
     | _ :: _ :: _ => false)

/-!
## The callsign extractor (source lines 79-101)

A rendered PDF is modelled as either malformed bytes (on which
`fitz.open` raises) or a document: a list of pages, each page already
split into the lines produced by `page.get_text("text").splitlines()`.
-/

/-- `"VIDP" in line.upper()` (source line 94): case-insensitive
substring containment of the marker. -/
def containsVIDPsub (l : Line) : Bool :=
  isInfixB ['V', 'I', 'D', 'P'] (pyUpperLine l)

/-- The slice `lines[max(0, i-2) : min(len(lines), i+3)]` (source line
96); natural-number subtraction gives exactly the `max(0, i-2)` clamp. -/
def windowAt (lines : List Line) (i : Nat) : List Line :=
  (lines.drop (i - 2)).take (min lines.length (i + 3) - (i - 2))

/-- `" ".join(window)` (source line 96). -/
def joinSpace : List Line → Line
  | [] => []
  | [l] => l
  | l :: ls₀ :: ls => l ++ ' ' :: joinSpace (ls₀ :: ls)

/-- The matches contributed by one page (source lines 90-99): for every
line whose uppercasing contains `"VIDP"` as a substring, all regex
matches found in the space-joined ±2-line window. -/
def extractPage (lines : List Line) : List Line :=
  ((List.range lines.length).filter fun i => containsVIDPsub (lines.getD i [])).flatMap
    fun i => reFindall (joinSpace (windowAt lines i))

/-- All matches of a document, collapsed into a set - the Python code
accumulates them in the set `callsigns` (source lines 84, 99). -/
def extract_callsigns_pages (pages : List (List Line)) : Finset Line :=
  (pages.flatMap extractPage).toFinset

/-- Downloaded bytes: either not a well-formed PDF (so `fitz.open`
raises), or a document whose pages render to the given lines. -/
inductive PdfBytes where
  | malformed
  | doc (pages : List (List Line))
deriving DecidableEq

/-- `extract_callsigns_from_pdf_bytes` (source lines 79-101):
`Except.error` models the uncaught exception raised by `fitz.open` on a
malformed stream; on a well-formed document it returns the match set
(the code returns `list(callsigns)`, whose iteration order is not
meaningful - the set is the faithful value). -/
def extract_callsigns_from_pdf_bytes : PdfBytes → Except Unit (Finset Line)
  | .malformed => .error ()
  | .doc pages => .ok (extract_callsigns_pages pages)

/-!
## The listing fetcher (source lines 58-77)

The HTTP fetch and the HTML parse are external; the model takes the
ordered list of `href` attributes found by `soup.find_all("a",
href=True)` and reproduces the filtering, base-prefixing and
order-preserving de-duplication of `find_pdf_links`.
-/

/-- `BASE_URL = "https://www.atfmaai.aero"` (source line 14). -/
def BASE_URL : Line := "https://www.atfmaai.aero".data

/-- `".pdf"`. -/
def pdfExt : Line := ['.', 'p', 'd', 'f']

/-- `href.lower().endswith(".pdf")` (source line 66). -/
def endsWithPdf (h : Line) : Bool := isSuffixB pdfExt (toLowerLine h)

/-- `href.startswith("/")` (source line 67). -/
def startsSlash : Line → Bool
  | '/' :: _ => true
  | _ => false

/-- The body of the first loop of `find_pdf_links` (source lines 64-69):
strip each href, keep those ending in `.pdf` case-insensitively, prefix
`BASE_URL` to those starting with `/`. -/
def collectLinks : List Line → List Line
  | [] => []
  | a :: rest =>
    let href := trimLine a
    if endsWithPdf href then
      (if startsSlash href then BASE_URL ++ href else href) :: collectLinks rest
    else collectLinks rest

/-- The second loop of `find_pdf_links` (source lines 70-77): keep order
and unique, tracking already-emitted values in a set. -/
def dedupKeepFirst : List Line → Finset Line → List Line
  | [], _ => []
  | v :: rest, s =>
    if v ∈ s then dedupKeepFirst rest s else v :: dedupKeepFirst rest (insert v s)

/-- `find_pdf_links` (source lines 58-77), as a function of the hrefs on
the listing page. -/
def find_pdf_links (hrefs : List Line) : List Line :=
  dedupKeepFirst (collectLinks hrefs) ∅

/-!
## Seen-set persistence (source lines 30-41)

The file system and `json` module are external.  `load_seen` is modelled
on the parsed content of `seen.json`: `none` = the file does not exist,
`some none` = it exists but `json.load` raises (caught, line 35),
`some (some j)` = it parses to the JSON value `j`.  Python then computes
`set(json.load(f))`: iterating a JSON array yields its elements, a
string its one-character substrings, an object its keys; numbers,
booleans and null are not iterable (`TypeError`, caught); putting an
unhashable element (a nested array or object) into the set also raises
`TypeError` (caught).
-/

/-- Hashable JSON scalars - the only values that can live in the seen
set. -/
inductive JVal where
  | str (s : String)
  | num (n : Int)
  | bool (b : Bool)
  | null
deriving DecidableEq

/-- Parsed JSON values. -/
inductive Json where
  | prim (v : JVal)
  | arr (xs : List Json)
  | obj (kvs : List (String × Json))

/-- Python iteration over a JSON value: arrays yield elements, strings
yield one-character strings, dicts yield their keys; scalars are not
iterable. -/
def pyIter : Json → Option (List Json)
  | .arr xs => some xs
  | .obj kvs => some (kvs.map fun kv => .prim (.str kv.1))
  | .prim (.str s) => some (s.data.map fun c => .prim (.str (String.mk [c])))
  | .prim _ => none

/-- A set element must be hashable: scalars are, arrays and objects are
not. -/
def asHashable : Json → Option JVal
  | .prim v => some v
  | .arr _ => none
  | .obj _ => none

/-- Building the Python set from the iterated elements: `none` when some
element is unhashable (the `TypeError` path), otherwise the scalars. -/
def mapHashable : List Json → Option (List JVal)
  | [] => some []
  | j :: rest =>
    match asHashable j with
    | none => none
    | some v =>
      match mapHashable rest with
      | none => none
      | some vs => some (v :: vs)

/-- `load_seen` (source lines 30-37): empty set on a missing file, on a
parse error, and on any `TypeError` while building the set. -/
def load_seen (file : Option (Option Json)) : Finset JVal :=
  match file with
  | none => ∅
  | some none => ∅
  | some (some j) =>
    match pyIter j with
    | none => ∅
    | some elems =>
      match mapHashable elems with
      | none => ∅
      | some vs => vs.toFinset

/-- `save_seen` (source lines 39-41): `json.dump(sorted(list(seen)), f)`
- the persisted value is the sorted JSON array of the set's strings. -/
def save_seen (seen : Finset String) : Json :=
  .arr ((seen.sort (· ≤ ·)).map fun s => .prim (.str s))

/-!
## The per-run driver `process_new_pdfs` (source lines 103-129)

URLs are opaque strings (`Line`).  The `download` oracle stands for
`requests.get(pdf_url, timeout=...)` + `raise_for_status`: an
`Except.error` is the caught network/status exception (lines 114-119),
an `Except.ok` the received bytes.  The run state additionally records
which URLs were requested and which were passed to the extractor, so
that "never downloaded / never re-extracted" claims are statable.  The
`Bool` of the result is true iff the run reached `save_seen` (line 128)
- an uncaught extraction error aborts the run before it.
-/

/-- URL strings. -/
abbrev Url := Line

/-- Observable state of one run of `process_new_pdfs`. -/
structure RunState where
  newSeen : Finset Url
  alerts : List (Url × Finset Line)
  downloaded : List Url
  extracted : List Url
deriving DecidableEq

/-- The `for pdf_url in pdfs` loop of `process_new_pdfs` (source lines
110-126). -/
def processLoop (seen : Finset Url) (download : Url → Except Unit PdfBytes) :
    List Url → RunState → RunState × Bool
  | [], st => (st, true)
  | u :: rest, st =>
    if u ∈ seen then processLoop seen download rest st
    else
      let st₁ : RunState := { st with downloaded := st.downloaded ++ [u] }
      match download u with
      | .error _ => processLoop seen download rest st₁
      | .ok pdf =>
        let st₂ : RunState := { st₁ with extracted := st₁.extracted ++ [u] }
        match extract_callsigns_from_pdf_bytes pdf with
        | .error _ => (st₂, false)
        | .ok cs =>
          processLoop seen download rest
            { st₂ with
              alerts := if cs = ∅ then st₂.alerts else st₂.alerts ++ [(u, cs)],
              newSeen := insert u st₂.newSeen }

/-- `process_new_pdfs` (source lines 103-129) given the loaded seen set
and the listing's links; the `Bool` records whether `save_seen` was
reached. -/
def process_new_pdfs (seen : Finset Url) (pdfs : List Url)
    (download : Url → Except Unit PdfBytes) : RunState × Bool :=
  processLoop seen download pdfs ⟨seen, [], [], []⟩

/-!
## Notifier and `main` (source lines 43-56, 131-146)
-/

/-- Python truthiness of an optional environment string: `not x` is true
for an unset variable and for the empty string. -/
def pyFalsy (o : Option String) : Bool := o.getD "" = ""

/-- `send_email` (source lines 43-56): with any credential missing it
prints and returns (`.ok false`); otherwise the SMTP session runs with
no exception handler, so a transport failure (`deliver = false`) raises
(`.error`), and on success the mail is sent (`.ok true`). -/
def send_email (username password toAddr : Option String) (deliver : Bool) :
    Except Unit Bool :=
  if pyFalsy username || pyFalsy password || pyFalsy toAddr then .ok false
  else if deliver then .ok true else .error ()

/-- Observable outcome of `main`: the persisted seen set if `save_seen`
ran, whether the process terminated with an uncaught exception, and
whether an alert email went out. -/
structure MainResult where
  saved : Option (Finset Url)
  crashed : Bool
  emailed : Bool
deriving DecidableEq

/-- `main` (source lines 131-146; named `mainRun` because Lean reserves `main` for entry points): run `process_new_pdfs` (which saves
the seen set just before returning), then send one combined email only
when там are alerts.  An uncaught exception in extraction prevents the
save; an uncaught SMTP exception happens after it. -/
def mainRun (seen : Finset Url) (pdfs : List Url)
    (download : Url → Except Unit PdfBytes)
    (username password toAddr : Option String) (deliver : Bool) : MainResult :=
  match process_new_pdfs seen pdfs download with
  | (_, false) => { saved := none, crashed := true, emailed := false }
  | (st, true) =>
    if st.alerts.isEmpty then { saved := some st.newSeen, crashed := false, emailed := false }
    else
      match send_email username password toAddr deliver with
      | .ok sent => { saved := some st.newSeen, crashed := false, emailed := sent }
      | .error _ => { saved := some st.newSeen, crashed := true, emailed := false }

/-!
## Basic character and list lemmas
-/

theorem upper_not_digit {c : Char} (h : isUpperB c = true) : isDigitB c = false := by
  cases hd : isDigitB c
  · rfl
  · exfalso
    simp only [isUpperB, isDigitB, Bool.and_eq_true, decide_eq_true_eq] at h hd
    omega

theorem digit_not_upper {c : Char} (h : isDigitB c = true) : isUpperB c = false := by
  cases hu : isUpperB c
  · rfl
  · exfalso
    simp only [isUpperB, isDigitB, Bool.and_eq_true, decide_eq_true_eq] at h hu
    omega

theorem upper_word {c : Char} (h : isUpperB c = true) : isWordCharB c = true := by
  simp [isWordCharB, h]

theorem digit_word {c : Char} (h : isDigitB c = true) : isWordCharB c = true := by
  simp [isWordCharB, h]

theorem twAppendAll {p : Char → Bool} :
    ∀ {l r : Line}, l.all p = true → (l ++ r).takeWhile p = l ++ r.takeWhile p := by
  intro l
  induction l with
  | nil => intro r _; rfl
  | cons a l ih =>
    intro r hall
    simp only [List.all_cons, Bool.and_eq_true] at hall
    simp [List.takeWhile_cons, hall.1, ih hall.2]

theorem twStop {p : Char → Bool} {sep : Char} (hsep : p sep = false) :
    ∀ (x y : Line), (x ++ sep :: y).takeWhile p = x.takeWhile p := by
  intro x y
  induction x with
  | nil => simp [List.takeWhile_cons, hsep]
  | cons a x ih =>
    by_cases hpa : p a = true
    · simp [List.takeWhile_cons, hpa, ih]
    · simp only [Bool.not_eq_true] at hpa
      simp [List.takeWhile_cons, hpa]

theorem mem_tw {p : Char → Bool} :
    ∀ {l : Line} {c : Char}, c ∈ l.takeWhile p → p c = true := by
  intro l
  induction l with
  | nil => intro c h; simp at h
  | cons a l ih =>
    intro c h
    by_cases hpa : p a = true
    · rw [List.takeWhile_cons, if_pos hpa] at h
      rcases List.mem_cons.mp h with rfl | h
      · exact hpa
      · exact ih h
    · simp only [Bool.not_eq_true] at hpa
      rw [List.takeWhile_cons, if_neg (by simp [hpa])] at h
      simp at h

theorem all_tw {p : Char → Bool} {l : Line} : (l.takeWhile p).all p = true :=
  List.all_eq_true.mpr fun _ hc => mem_tw hc

theorem take_tw_len {p : Char → Bool} :
    ∀ (l : Line), l.take (l.takeWhile p).length = l.takeWhile p := by
  intro l
  induction l with
  | nil => rfl
  | cons a l ih =>
    by_cases hpa : p a = true
    · simp [List.takeWhile_cons, hpa, ih]
    · simp only [Bool.not_eq_true] at hpa
      simp [List.takeWhile_cons, hpa]

theorem drop_tw_len {p : Char → Bool} :
    ∀ (l : Line), l.drop (l.takeWhile p).length = l.dropWhile p := by
  intro l
  induction l with
  | nil => rfl
  | cons a l ih =>
    by_cases hpa : p a = true
    · simp [List.takeWhile_cons, List.dropWhile_cons, hpa, ih]
    · simp only [Bool.not_eq_true] at hpa
      simp [List.takeWhile_cons, List.dropWhile_cons, hpa]

theorem dropWhile_head_false {p : Char → Bool} :
    ∀ {l : Line} {c : Char} {r : Line}, l.dropWhile p = c :: r → p c = false := by
  intro l
  induction l with
  | nil => intro c r h; simp at h
  | cons a l ih =>
    intro c r h
    by_cases hpa : p a = true
    · rw [List.dropWhile_cons, if_pos hpa] at h
      exact ih h
    · simp only [Bool.not_eq_true] at hpa
      rw [List.dropWhile_cons, if_neg (by simp [hpa])] at h
      cases h
      exact hpa

theorem isPrefixB_self_append : ∀ (p r : Line), isPrefixB p (p ++ r) = true := by
  intro p r
  induction p with
  | nil => rfl
  | cons a p ih => simp [isPrefixB, ih]

theorem isPrefixB_append_right :
    ∀ (p l r : Line), isPrefixB p l = true → isPrefixB p (l ++ r) = true := by
  intro p
  induction p with
  | nil => intro l r _; rfl
  | cons a p ih =>
    intro l r h
    cases l with
    | nil => simp [isPrefixB] at h
    | cons b l =>
      simp only [isPrefixB] at h
      simp only [List.cons_append, isPrefixB]
      split at h
      · next hab => rw [if_pos hab]; exact ih l r h
      · exact absurd h (by decide)

theorem isInfixB_cons {p : Line} {c : Char} {l : Line} (h : isInfixB p l = true) :
    isInfixB p (c :: l) = true := by
  simp [isInfixB, h]

theorem takeRun_eq_some {p : Char → Bool} {n : Nat} {l t : Line} :
    takeRun p n l = some t ↔
      t = l.take n ∧ (l.take n).length = n ∧ (l.take n).all p = true := by
  unfold takeRun
  split
  next h =>
    constructor
    · intro ht
      injection ht with ht
      exact ⟨ht.symm, h.1, h.2⟩
    · intro ht
      rw [ht.1]
  next h =>
    constructor
    · intro ht; simp at ht
    · intro ht; exact absurd ⟨ht.2.1, ht.2.2⟩ h

theorem firstSome_some_mem : ∀ {xs : List (Option Line)} {v : Line},
    firstSome xs = some v → some v ∈ xs := by
  intro xs
  induction xs with
  | nil => intro v h; simp [firstSome] at h
  | cons x rest ih =>
    intro v h
    cases x with
    | some y =>
      simp only [firstSome] at h
      rw [h]
      exact List.mem_cons_self _ _
    | none =>
      simp only [firstSome] at h
      exact List.mem_cons_of_mem _ (ih h)

theorem firstSome_eq_some : ∀ {xs : List (Option Line)} {w : Line},
    (∀ x ∈ xs, x = none ∨ x = some w) → some w ∈ xs → firstSome xs = some w := by
  intro xs
  induction xs with
  | nil => intro w _ hex; simp at hex
  | cons x rest ih =>
    intro w hall hex
    cases x with
    | some y =>
      rcases hall _ (List.mem_cons_self _ _) with h | h
      · simp at h
      · injection h with h
        subst h
        simp [firstSome]
    | none =>
      simp only [firstSome]
      apply ih (fun x hx => hall x (List.mem_cons_of_mem _ hx))
      rcases List.mem_cons.mp hex with h | h
      · simp at h
      · exact h

theorem all_upper_word {x : Line} (h : x.all isUpperB = true) :
    x.all isWordCharB = true :=
  List.all_eq_true.mpr fun c hc => upper_word (List.all_eq_true.mp h c hc)

theorem all_digit_word {x : Line} (h : x.all isDigitB = true) :
    x.all isWordCharB = true :=
  List.all_eq_true.mpr fun c hc => digit_word (List.all_eq_true.mp h c hc)

/-- Soundness of one backtracking alternative: a successful attempt with
quantifier counts inside the pattern's ranges captures exactly the
maximal word run at the start of the input, and that word has the
callsign shape. -/
theorem attempt_sound {a d o : Nat} {l t : Line}
    (ha2 : 2 ≤ a) (ha3 : a ≤ 3) (hd2 : 2 ≤ d) (hd4 : d ≤ 4) (ho : o ≤ 1)
    (h : attemptCallsign a d o l = some t) :
    t = l.takeWhile isWordCharB ∧ callsignShape t = true := by
  simp only [attemptCallsign] at h
  split at h
  · simp at h
  next us hus =>
    split at h
    · simp at h
    next ds hds =>
      split at h
      · simp at h
      next os hos =>
        split at h
        case isFalse => simp at h
        case isTrue hb =>
          injection h with h
          subst h
          rw [takeRun_eq_some] at hus hds hos
          obtain ⟨husv, husl, husp⟩ := hus
          obtain ⟨hdsv, hdsl, hdsp⟩ := hds
          obtain ⟨hosv, hosl, hosp⟩ := hos
          rw [← husv] at husl husp
          rw [← hdsv] at hdsl hdsp
          rw [← hosv] at hosl hosp
          have hl1 : l = us ++ l.drop a := by
            conv_lhs => rw [← List.take_append_drop a l, ← husv]
          have hl2 : l.drop a = ds ++ (l.drop a).drop d := by
            conv_lhs => rw [← List.take_append_drop d (l.drop a), ← hdsv]
          have hl3 : (l.drop a).drop d = os ++ ((l.drop a).drop d).drop o := by
            conv_lhs => rw [← List.take_append_drop o ((l.drop a).drop d), ← hosv]
          set after := ((l.drop a).drop d).drop o with hafter
          have hds_ne : ds ≠ [] := by
            intro hnil; rw [hnil] at hdsl; simp at hdsl; omega
          have hus_word : us.all isWordCharB = true := all_upper_word husp
          have hds_word : ds.all isWordCharB = true := all_digit_word hdsp
          have hos_word : os.all isWordCharB = true := all_upper_word hosp
          have hafter_tw : after.takeWhile isWordCharB = [] := by
            cases hcase : after with
            | nil => rfl
            | cons c r =>
              rw [hcase] at hb
              simp only [boundaryAfter, Bool.not_eq_true'] at hb
              simp [List.takeWhile_cons, hb]
          have htw : l.takeWhile isWordCharB = us ++ ds ++ os := by
            rw [hl1, hl2, hl3]
            rw [twAppendAll hus_word, twAppendAll hds_word, twAppendAll hos_word]
            rw [hafter_tw]
            simp [List.append_assoc]
          refine ⟨htw.symm, ?_⟩
          have h1 : (us ++ ds ++ os).takeWhile isUpperB = us := by
            rw [List.append_assoc, twAppendAll husp]
            cases hdc : ds with
            | nil => exact absurd hdc hds_ne
            | cons c ds₂ =>
              have hcd : isDigitB c = true := by
                have := List.all_eq_true.mp hdsp c (by rw [hdc]; exact List.mem_cons_self _ _)
                exact this
              simp [List.takeWhile_cons, digit_not_upper hcd]
          have h2 : (us ++ ds ++ os).drop us.length = ds ++ os := by
            rw [List.append_assoc]
            exact List.drop_left us (ds ++ os)
          have h3 : (ds ++ os).takeWhile isDigitB = ds := by
            rw [twAppendAll hdsp]
            cases hoc : os with
            | nil => simp
            | cons c os₂ =>
              have hcu : isUpperB c = true := by
                have := List.all_eq_true.mp hosp c (by rw [hoc]; exact List.mem_cons_self _ _)
                exact this
              simp [List.takeWhile_cons, upper_not_digit hcu]
          have h4 : (ds ++ os).drop ds.length = os := List.drop_left ds os
          simp only [callsignShape, h1, h2, h3, h4]
          rw [husl, hdsl]
          have hbounds : (decide (2 ≤ a) && decide (a ≤ 3) &&
              decide (2 ≤ d) && decide (d ≤ 4)) = true := by
            simp [ha2, ha3, hd2, hd4]
          rw [hbounds]
          cases hoc : os with
          | nil => rfl
          | cons c os₂ =>
            cases os₂ with
            | nil =>
              simp only [Bool.true_and]
              have := List.all_eq_true.mp hosp c (by rw [hoc]; exact List.mem_cons_self _ _)
              exact this
            | cons c₂ os₃ =>
              exfalso
              rw [hoc] at hosl
              simp at hosl
              omega

/-- The canonical decomposition of a shaped word: bounds of its three
segments, read off the shape predicate. -/
theorem shape_bounds {w : Line} (h : callsignShape w = true) :
    2 ≤ (w.takeWhile isUpperB).length ∧ (w.takeWhile isUpperB).length ≤ 3 ∧
      2 ≤ ((w.drop (w.takeWhile isUpperB).length).takeWhile isDigitB).length ∧
      ((w.drop (w.takeWhile isUpperB).length).takeWhile isDigitB).length ≤ 4 ∧
      ((w.drop (w.takeWhile isUpperB).length).drop
          ((w.drop (w.takeWhile isUpperB).length).takeWhile isDigitB).length).length ≤ 1 ∧
      ((w.drop (w.takeWhile isUpperB).length).drop
          ((w.drop (w.takeWhile isUpperB).length).takeWhile isDigitB).length).all isUpperB
        = true := by
  simp only [callsignShape, Bool.and_eq_true, decide_eq_true_eq] at h
  obtain ⟨⟨⟨⟨h1, h2⟩, h3⟩, h4⟩, h5⟩ := h
  refine ⟨h1, h2, h3, h4, ?_, ?_⟩
  · cases hr : (w.drop (w.takeWhile isUpperB).length).drop
        ((w.drop (w.takeWhile isUpperB).length).takeWhile isDigitB).length with
    | nil => simp
    | cons c r2 =>
      cases r2 with
      | nil => simp
      | cons c₂ r3 => rw [hr] at h5; simp at h5
  · cases hr : (w.drop (w.takeWhile isUpperB).length).drop
        ((w.drop (w.takeWhile isUpperB).length).takeWhile isDigitB).length with
    | nil => simp
    | cons c r2 =>
      cases r2 with
      | nil => rw [hr] at h5; simpa using h5
      | cons c₂ r3 => rw [hr] at h5; simp at h5

/-- Completeness of the canonical backtracking alternative: if the
maximal word at the head of `l` has the callsign shape, the attempt with
the word's own segment lengths succeeds and captures the word. -/
theorem attempt_complete {l w us ds os : Line}
    (hw : w = l.takeWhile isWordCharB)
    (hus : us = w.takeWhile isUpperB)
    (hds : ds = (w.drop us.length).takeWhile isDigitB)
    (hos : os = (w.drop us.length).drop ds.length)
    (hosu : os.all isUpperB = true) :
    attemptCallsign us.length ds.length os.length l = some w := by
  have husw : w.take us.length = us := by rw [hus]; exact take_tw_len w
  have hw_split : w = us ++ w.drop us.length := by
    conv_lhs => rw [← List.take_append_drop us.length w]
    rw [husw]
  have hdsr : (w.drop us.length).take ds.length = ds := by
    rw [hds]; exact take_tw_len _
  have hr1_split : w.drop us.length = ds ++ os := by
    rw [hos]
    conv_lhs => rw [← List.take_append_drop ds.length (w.drop us.length)]
    rw [hdsr]
  have hwdecomp : w = us ++ (ds ++ os) := by rw [hw_split, hr1_split]
  have hlw : l.take w.length = w := by rw [hw]; exact take_tw_len l
  have hlafter : l.drop w.length = l.dropWhile isWordCharB := by
    rw [hw]; exact drop_tw_len l
  have hlfull : l = us ++ (ds ++ (os ++ l.dropWhile isWordCharB)) := by
    conv_lhs => rw [← List.take_append_drop w.length l]
    rw [hlw, hlafter]
    conv_lhs => rw [hwdecomp]
    simp [List.append_assoc]
  have husa : us.all isUpperB = true := by rw [hus]; exact all_tw
  have hdsa : ds.all isDigitB = true := by rw [hds]; exact all_tw
  have e1 : takeRun isUpperB us.length l = some us := by
    rw [takeRun_eq_some]
    have ht : l.take us.length = us := by
      conv_lhs => rw [hlfull]
      exact List.take_left us _
    exact ⟨ht.symm, by rw [ht], by rw [ht]; exact husa⟩
  have hdrop1 : l.drop us.length = ds ++ (os ++ l.dropWhile isWordCharB) := by
    conv_lhs => rw [hlfull]
    exact List.drop_left us _
  have e2 : takeRun isDigitB ds.length (l.drop us.length) = some ds := by
    rw [takeRun_eq_some]
    have ht : (l.drop us.length).take ds.length = ds := by
      rw [hdrop1]
      exact List.take_left ds _
    exact ⟨ht.symm, by rw [ht], by rw [ht]; exact hdsa⟩
  have hdrop2 : (l.drop us.length).drop ds.length = os ++ l.dropWhile isWordCharB := by
    rw [hdrop1]
    exact List.drop_left ds _
  have e3 : takeRun isUpperB os.length ((l.drop us.length).drop ds.length) = some os := by
    rw [takeRun_eq_some]
    have ht : ((l.drop us.length).drop ds.length).take os.length = os := by
      rw [hdrop2]
      exact List.take_left os _
    exact ⟨ht.symm, by rw [ht], by rw [ht]; exact hosu⟩
  have hdrop3 : ((l.drop us.length).drop ds.length).drop os.length = l.dropWhile isWordCharB := by
    rw [hdrop2]
    exact List.drop_left os _
  have e4 : boundaryAfter (((l.drop us.length).drop ds.length).drop os.length) = true := by
    rw [hdrop3]
    cases hafter : l.dropWhile isWordCharB with
    | nil => rfl
    | cons c r =>
      simp only [boundaryAfter, Bool.not_eq_true']
      exact dropWhile_head_false hafter
  simp only [attemptCallsign, e1, e2, e3, e4, if_true]
  rw [hwdecomp, List.append_assoc]

/-- Every pair of in-range quantifier counts appears among the
alternatives the greedy engine tries. -/
theorem attempts_mem (l : Line) (a d o : Nat) (ha2 : 2 ≤ a) (ha3 : a ≤ 3)
    (hd2 : 2 ≤ d) (hd4 : d ≤ 4) (ho : o ≤ 1) :
    attemptCallsign a d o l ∈ attemptsList l := by
  interval_cases a <;> interval_cases d <;> interval_cases o <;> simp [attemptsList]

/-- A successful attempt can only capture the maximal word at the head
of the input. -/
theorem attempt_none_or (a d o : Nat) (l : Line) (ha2 : 2 ≤ a) (ha3 : a ≤ 3)
    (hd2 : 2 ≤ d) (hd4 : d ≤ 4) (ho : o ≤ 1) :
    attemptCallsign a d o l = none ∨
      attemptCallsign a d o l = some (l.takeWhile isWordCharB) := by
  cases hval : attemptCallsign a d o l with
  | none => exact Or.inl rfl
  | some t2 =>
    obtain ⟨hA, _⟩ := attempt_sound ha2 ha3 hd2 hd4 ho hval
    exact Or.inr (by rw [hA])

/-- The regex engine's match attempt, characterised: because the pattern
is bracketed by `\b` and consumes only word characters, a match starting
at the head of `l` exists exactly when the previous character is not a
word character and the maximal word run at the head of `l` has the
callsign shape - and then the capture is that whole word. -/
theorem tryMatch_eq_some {prev : Bool} {l t : Line} :
    tryMatch prev l = some t ↔
      prev = false ∧ callsignShape (l.takeWhile isWordCharB) = true ∧
        t = l.takeWhile isWordCharB := by
  constructor
  · intro h
    unfold tryMatch at h
    split at h
    · simp at h
    next hprev =>
      have hpf : prev = false := by simpa using hprev
      have hmem := firstSome_some_mem h
      simp only [attemptsList, List.mem_cons, List.not_mem_nil, or_false] at hmem
      rcases hmem with h1 | h1 | h1 | h1 | h1 | h1 | h1 | h1 | h1 | h1 | h1 | h1 <;>
        · obtain ⟨hA, hB⟩ := attempt_sound (by omega) (by omega) (by omega) (by omega)
            (by omega) h1.symm
          exact ⟨hpf, hA ▸ hB, hA⟩
  · rintro ⟨hpf, hshape, rfl⟩
    subst hpf
    unfold tryMatch
    rw [if_neg (by simp)]
    obtain ⟨ha2, ha3, hd2, hd4, ho1, hoall⟩ := shape_bounds hshape
    have hatt := attempt_complete (l := l) rfl rfl rfl rfl hoall
    apply firstSome_eq_some
    · intro x hx
      simp only [attemptsList, List.mem_cons, List.not_mem_nil, or_false] at hx
      rcases hx with h1 | h1 | h1 | h1 | h1 | h1 | h1 | h1 | h1 | h1 | h1 | h1 <;>
        · rw [h1]
          exact attempt_none_or _ _ _ l (by omega) (by omega) (by omega) (by omega)
            (by omega)
    · have hm := attempts_mem l _ _ _ ha2 ha3 hd2 hd4 ho1
      rw [hatt] at hm
      exact hm

theorem wordsAux_true_dropWhile :
    ∀ s : Line, wordsAux true (s.dropWhile isWordCharB) = wordsAux true s := by
  intro s
  induction s with
  | nil => rfl
  | cons c r ih =>
    by_cases hwc : isWordCharB c = true
    · rw [List.dropWhile_cons, if_pos hwc, ih]
      conv_rhs => rw [wordsAux]
      rw [if_pos hwc, if_pos rfl]
    · simp only [Bool.not_eq_true] at hwc
      rw [List.dropWhile_cons, if_neg (by simp [hwc])]

theorem dropWhile_length_le {p : Char → Bool} :
    ∀ l : Line, (l.dropWhile p).length ≤ l.length := by
  intro l
  induction l with
  | nil => exact le_refl _
  | cons c r ih =>
    by_cases hpc : p c = true
    · rw [List.dropWhile_cons, if_pos hpc]
      exact le_trans ih (Nat.le_succ _)
    · simp only [Bool.not_eq_true] at hpc
      rw [List.dropWhile_cons, if_neg (by simp [hpc])]

theorem shape_nil_false : callsignShape [] = false := by decide

/-- The scan of `re.findall` over this pattern returns exactly the whole
words of the input that have the callsign shape, in order. -/
theorem reFindallFuel_eq_filter :
    ∀ (n : Nat) (prev : Bool) (s : Line), s.length ≤ n →
      reFindallFuel n prev s = (wordsAux prev s).filter callsignShape := by
  intro n
  induction n with
  | zero =>
    intro prev s h
    have hs : s = [] := List.eq_nil_of_length_eq_zero (Nat.le_zero.mp h)
    subst hs
    simp [reFindallFuel, wordsAux]
  | succ n ih =>
    intro prev s hlen
    cases s with
    | nil => simp [reFindallFuel, wordsAux]
    | cons c rest =>
      have hrest : rest.length ≤ n := by
        simp only [List.length_cons] at hlen
        omega
      cases htm : tryMatch prev (c :: rest) with
      | some t =>
        obtain ⟨hpf, hshape, ht⟩ := tryMatch_eq_some.mp htm
        subst hpf
        have hwc : isWordCharB c = true := by
          by_contra hwc
          simp only [Bool.not_eq_true] at hwc
          rw [List.takeWhile_cons, if_neg (by simp [hwc])] at hshape
          rw [shape_nil_false] at hshape
          exact absurd hshape (by simp)
        have htw : (c :: rest).takeWhile isWordCharB = c :: rest.takeWhile isWordCharB := by
          rw [List.takeWhile_cons, if_pos hwc]
        rw [htw] at ht hshape
        rw [reFindallFuel, htm]
        show t :: reFindallFuel n true (rest.drop (t.length - 1)) = _
        rw [ht]
        have hdroplen : rest.drop ((c :: rest.takeWhile isWordCharB).length - 1) =
            rest.dropWhile isWordCharB := by
          simp only [List.length_cons, Nat.add_sub_cancel]
          exact drop_tw_len rest
        rw [hdroplen]
        have hdlen : (rest.dropWhile isWordCharB).length ≤ n :=
          le_trans (dropWhile_length_le rest) hrest
        rw [ih true _ hdlen, wordsAux_true_dropWhile]
        conv_rhs => rw [wordsAux]
        rw [if_pos hwc, if_neg (by simp)]
        rw [List.filter_cons, if_pos hshape]
      | none =>
        rw [reFindallFuel, htm]
        show reFindallFuel n (isWordCharB c) rest = _
        by_cases hwc : isWordCharB c = true
        · cases hprev : prev with
          | true =>
            rw [ih _ _ hrest, hwc]
            conv_rhs => rw [wordsAux]
            rw [if_pos hwc, if_pos rfl]
          | false =>
            have hshape : callsignShape ((c :: rest).takeWhile isWordCharB) = false := by
              by_contra hsh
              simp only [Bool.not_eq_false] at hsh
              have : tryMatch false (c :: rest) = some ((c :: rest).takeWhile isWordCharB) :=
                tryMatch_eq_some.mpr ⟨rfl, hsh, rfl⟩
              rw [hprev] at htm
              rw [htm] at this
              exact absurd this (by simp)
            rw [ih _ _ hrest, hwc]
            conv_rhs => rw [wordsAux]
            rw [if_pos hwc, if_neg (by simp)]
            rw [List.filter_cons]
            rw [List.takeWhile_cons, if_pos hwc] at hshape
            rw [if_neg (by simp [hshape])]
        · simp only [Bool.not_eq_true] at hwc
          rw [ih _ _ hrest, hwc]
          conv_rhs => rw [wordsAux]
          rw [if_neg (by simp [hwc])]

/-- `pattern_callsign.findall(s)` returns exactly the whole words of `s`
of callsign shape, in order of occurrence. -/
theorem reFindall_eq_filter (s : Line) :
    reFindall s = (wordsOf s).filter callsignShape :=
  reFindallFuel_eq_filter s.length false s le_rfl

theorem wordsAux_sep {sep : Char} (hsep : isWordCharB sep = false) :
    ∀ (x : Line) (prev : Bool) (y : Line),
      wordsAux prev (x ++ sep :: y) = wordsAux prev x ++ wordsAux false y := by
  intro x
  induction x with
  | nil =>
    intro prev y
    have h1 : wordsAux prev ([] ++ sep :: y) = wordsAux false y := by
      rw [List.nil_append]
      conv_lhs => rw [wordsAux]
      rw [if_neg (by simp [hsep])]
    rw [h1]
    rfl
  | cons a x ih =>
    intro prev y
    rw [List.cons_append]
    by_cases hwa : isWordCharB a = true
    · cases prev with
      | true =>
        conv_lhs => rw [wordsAux]
        conv_rhs => rw [wordsAux]
        rw [if_pos hwa, if_pos rfl, if_pos hwa, if_pos rfl]
        exact ih true y
      | false =>
        conv_lhs => rw [wordsAux]
        conv_rhs => rw [wordsAux]
        rw [if_pos hwa, if_neg (by simp), if_pos hwa, if_neg (by simp)]
        rw [twStop hsep x y, ih true y]
        rw [List.cons_append]
    · simp only [Bool.not_eq_true] at hwa
      conv_lhs => rw [wordsAux]
      conv_rhs => rw [wordsAux]
      rw [if_neg (by simp [hwa]), if_neg (by simp [hwa])]
      exact ih false y

/-- Joining lines with single spaces concatenates their word lists: a
space is not a word character, so words never merge across the seam. -/
theorem wordsOf_joinSpace : ∀ ls : List Line, wordsOf (joinSpace ls) = ls.flatMap wordsOf := by
  intro ls
  induction ls with
  | nil => rfl
  | cons l ls ih =>
    cases ls with
    | nil => simp [joinSpace, List.flatMap_cons]
    | cons l₂ ls₂ =>
      show wordsOf (l ++ ' ' :: joinSpace (l₂ :: ls₂)) = _
      unfold wordsOf
      rw [wordsAux_sep (by decide) l false (joinSpace (l₂ :: ls₂))]
      rw [List.flatMap_cons]
      exact congrArg (wordsAux false l ++ ·) ih

theorem words_infixB : ∀ {s : Line} {prev : Bool} {w : Line},
    w ∈ wordsAux prev s → isInfixB w s = true := by
  intro s
  induction s with
  | nil =>
    intro prev w h
    have : wordsAux prev ([] : Line) = [] := rfl
    rw [this] at h
    simp at h
  | cons c r ih =>
    intro prev w h
    rw [wordsAux] at h
    by_cases hwc : isWordCharB c = true
    · rw [if_pos hwc] at h
      cases prev with
      | true =>
        rw [if_pos rfl] at h
        exact isInfixB_cons (ih h)
      | false =>
        rw [if_neg (by simp)] at h
        rcases List.mem_cons.mp h with rfl | h
        · have hcr : c :: r = (c :: r.takeWhile isWordCharB) ++ r.dropWhile isWordCharB := by
            rw [List.cons_append, List.takeWhile_append_dropWhile]
          have hp : isPrefixB (c :: r.takeWhile isWordCharB) (c :: r) = true := by
            conv in c :: r => rw [hcr]
            exact isPrefixB_self_append _ _
          simp [isInfixB, hp]
        · exact isInfixB_cons (ih h)
    · simp only [Bool.not_eq_true] at hwc
      rw [if_neg (by simp [hwc])] at h
      exact isInfixB_cons (ih h)

/-- A line at distance at most two from line `i` lies inside the window
`lines[max(0, i-2) : min(len(lines), i+3)]`. -/
theorem mem_windowAt {lines : List Line} {i k : Nat}
    (hk : k < lines.length) (h1 : i ≤ k + 2) (h2 : k ≤ i + 2) :
    lines[k] ∈ windowAt lines i := by
  unfold windowAt
  have hik : i - 2 ≤ k := by omega
  have hmin : k < min lines.length (i + 3) := by omega
  have hd : k - (i - 2) < (lines.drop (i - 2)).length := by
    rw [List.length_drop]; omega
  have ht : k - (i - 2) < ((lines.drop (i - 2)).take (min lines.length (i + 3) - (i - 2))).length := by
    rw [List.length_take, List.length_drop]; omega
  have e1 : ((lines.drop (i - 2)).take (min lines.length (i + 3) - (i - 2)))[k - (i - 2)] =
      (lines.drop (i - 2))[k - (i - 2)] := List.getElem_take _
  have e2 : (lines.drop (i - 2))[k - (i - 2)] = lines[(i - 2) + (k - (i - 2))] :=
    List.getElem_drop _
  have hb : (i - 2) + (k - (i - 2)) < lines.length := by omega
  have e3 : lines[(i - 2) + (k - (i - 2))] = lines[k] := by
    congr 1
    omega
  have := List.getElem_mem ht
  rw [e1, e2, e3] at this
  exact this

/-- A standalone (whole-word) occurrence of the marker in the uppercased
line is in particular a substring occurrence, so the code's membership
test fires on it. -/
theorem vidp_word_marker {l : Line}
    (h : ['V', 'I', 'D', 'P'] ∈ wordsOf (pyUpperLine l)) :
    containsVIDPsub l = true :=
  words_infixB h

theorem mem_extractPage {lines : List Line} {i : Nat} (hi : i < lines.length)
    (hvidp : containsVIDPsub lines[i] = true) {t : Line}
    (ht : t ∈ reFindall (joinSpace (windowAt lines i))) :
    t ∈ extractPage lines := by
  unfold extractPage
  apply List.mem_flatMap.mpr
  refine ⟨i, ?_, ht⟩
  apply List.mem_filter.mpr
  refine ⟨List.mem_range.mpr hi, ?_⟩
  rw [List.getD_eq_getElem lines [] hi]
  exact hvidp

/-- Completeness of the extractor: a shaped whole-word token within two
lines of a line holding the marker as a standalone word is collected. -/
theorem extract_complete {pages : List (List Line)} {pg : List Line}
    (hpg : pg ∈ pages) {i k : Nat} (hi : i < pg.length) (hk : k < pg.length)
    (h1 : i ≤ k + 2) (h2 : k ≤ i + 2)
    (hm : ['V', 'I', 'D', 'P'] ∈ wordsOf (pyUpperLine pg[i]))
    {t : Line} (ht : t ∈ wordsOf pg[k]) (hs : callsignShape t = true) :
    t ∈ extract_callsigns_pages pages := by
  unfold extract_callsigns_pages
  rw [List.mem_toFinset]
  apply List.mem_flatMap.mpr
  refine ⟨pg, hpg, ?_⟩
  apply mem_extractPage hi (vidp_word_marker hm)
  rw [reFindall_eq_filter]
  apply List.mem_filter.mpr
  refine ⟨?_, hs⟩
  rw [wordsOf_joinSpace]
  apply List.mem_flatMap.mpr
  exact ⟨pg[k], mem_windowAt hk h1 h2, ht⟩

/-- Master invariant of the download loop: the in-memory seen set only
grows; a URL enters it only when its download returned a well-formed
document; URLs are requested or passed to the extractor only when they
are listed and not already seen. -/
theorem processLoop_inv (seen : Finset Url) (download : Url → Except Unit PdfBytes) :
    ∀ (rest : List Url) (st st' : RunState) (done : Bool),
      processLoop seen download rest st = (st', done) →
      st.newSeen ⊆ st'.newSeen ∧
        (∀ u, u ∈ st'.newSeen → u ∈ st.newSeen ∨
          (u ∈ rest ∧ u ∉ seen ∧ ∃ pages, download u = .ok (.doc pages))) ∧
        (∀ u, u ∈ st'.downloaded → u ∈ st.downloaded ∨ (u ∈ rest ∧ u ∉ seen)) ∧
        (∀ u, u ∈ st'.extracted → u ∈ st.extracted ∨ (u ∈ rest ∧ u ∉ seen)) := by
  intro rest
  induction rest with
  | nil =>
    intro st st' done h
    rw [processLoop] at h
    injection h with h1 h2
    subst h1
    exact ⟨Finset.Subset.refl _, fun u hu => Or.inl hu, fun u hu => Or.inl hu,
      fun u hu => Or.inl hu⟩
  | cons u rest ih =>
    intro st st' done h
    rw [processLoop] at h
    by_cases hu : u ∈ seen
    · rw [if_pos hu] at h
      obtain ⟨hsub, hnew, hdl, hex⟩ := ih _ _ _ h
      refine ⟨hsub, ?_, ?_, ?_⟩
      · intro v hv
        rcases hnew v hv with h₀ | ⟨hr, hs, hp⟩
        · exact Or.inl h₀
        · exact Or.inr ⟨List.mem_cons_of_mem _ hr, hs, hp⟩
      · intro v hv
        rcases hdl v hv with h₀ | ⟨hr, hs⟩
        · exact Or.inl h₀
        · exact Or.inr ⟨List.mem_cons_of_mem _ hr, hs⟩
      · intro v hv
        rcases hex v hv with h₀ | ⟨hr, hs⟩
        · exact Or.inl h₀
        · exact Or.inr ⟨List.mem_cons_of_mem _ hr, hs⟩
    · rw [if_neg hu] at h
      cases hdlu : download u with
      | error e =>
        simp only [hdlu] at h
        obtain ⟨hsub, hnew, hdl, hex⟩ := ih _ _ _ h
        refine ⟨hsub, ?_, ?_, ?_⟩
        · intro v hv
          rcases hnew v hv with h₀ | ⟨hr, hs, hp⟩
          · exact Or.inl h₀
          · exact Or.inr ⟨List.mem_cons_of_mem _ hr, hs, hp⟩
        · intro v hv
          rcases hdl v hv with h₀ | ⟨hr, hs⟩
          · simp only [List.mem_append, List.mem_singleton] at h₀
            rcases h₀ with h₀ | rfl
            · exact Or.inl h₀
            · exact Or.inr ⟨List.mem_cons_self _ _, hu⟩
          · exact Or.inr ⟨List.mem_cons_of_mem _ hr, hs⟩
        · intro v hv
          rcases hex v hv with h₀ | ⟨hr, hs⟩
          · exact Or.inl h₀
          · exact Or.inr ⟨List.mem_cons_of_mem _ hr, hs⟩
      | ok pdf =>
        simp only [hdlu] at h
        cases pdf with
        | malformed =>
          simp only [extract_callsigns_from_pdf_bytes] at h
          injection h with h1 h2
          subst h1
          refine ⟨Finset.Subset.refl _, fun v hv => Or.inl hv, ?_, ?_⟩
          · intro v hv
            simp only [List.mem_append, List.mem_singleton] at hv
            rcases hv with hv | rfl
            · exact Or.inl hv
            · exact Or.inr ⟨List.mem_cons_self _ _, hu⟩
          · intro v hv
            simp only [List.mem_append, List.mem_singleton] at hv
            rcases hv with hv | rfl
            · exact Or.inl hv
            · exact Or.inr ⟨List.mem_cons_self _ _, hu⟩
        | doc pages =>
          simp only [extract_callsigns_from_pdf_bytes] at h
          obtain ⟨hsub, hnew, hdl, hex⟩ := ih _ _ _ h
          refine ⟨?_, ?_, ?_, ?_⟩
          · intro v hv
            exact hsub (Finset.mem_insert_of_mem hv)
          · intro v hv
            rcases hnew v hv with h₀ | ⟨hr, hs, hp⟩
            · rcases Finset.mem_insert.mp h₀ with rfl | h₀
              · exact Or.inr ⟨List.mem_cons_self _ _, hu, pages, hdlu⟩
              · exact Or.inl h₀
            · exact Or.inr ⟨List.mem_cons_of_mem _ hr, hs, hp⟩
          · intro v hv
            rcases hdl v hv with h₀ | ⟨hr, hs⟩
            · simp only [List.mem_append, List.mem_singleton] at h₀
              rcases h₀ with h₀ | rfl
              · exact Or.inl h₀
              · exact Or.inr ⟨List.mem_cons_self _ _, hu⟩
            · exact Or.inr ⟨List.mem_cons_of_mem _ hr, hs⟩
          · intro v hv
            rcases hex v hv with h₀ | ⟨hr, hs⟩
            · simp only [List.mem_append, List.mem_singleton] at h₀
              rcases h₀ with h₀ | rfl
              · exact Or.inl h₀
              · exact Or.inr ⟨List.mem_cons_self _ _, hu⟩
            · exact Or.inr ⟨List.mem_cons_of_mem _ hr, hs⟩

/-- The loop reaches the end (and hence `save_seen`) whenever no listed
unseen URL downloads to a malformed document. -/
theorem processLoop_done (seen : Finset Url) (download : Url → Except Unit PdfBytes) :
    ∀ (rest : List Url) (st : RunState),
      (∀ v ∈ rest, v ∉ seen → download v ≠ .ok PdfBytes.malformed) →
      (processLoop seen download rest st).2 = true := by
  intro rest
  induction rest with
  | nil => intro st _; rw [processLoop]
  | cons u rest ih =>
    intro st hok
    rw [processLoop]
    by_cases hu : u ∈ seen
    · rw [if_pos hu]
      exact ih _ fun v hv => hok v (List.mem_cons_of_mem _ hv)
    · rw [if_neg hu]
      cases hdlu : download u with
      | error e =>
        simp only
        exact ih _ fun v hv => hok v (List.mem_cons_of_mem _ hv)
      | ok pdf =>
        cases pdf with
        | malformed => exact absurd hdlu (hok u (List.mem_cons_self _ _) hu)
        | doc pages =>
          simp only [extract_callsigns_from_pdf_bytes]
          exact ih _ fun v hv => hok v (List.mem_cons_of_mem _ hv)

/-- Conversely: a listed unseen URL whose bytes are malformed makes the
loop abort before `save_seen`. -/
theorem processLoop_crash (seen : Finset Url) (download : Url → Except Unit PdfBytes) :
    ∀ (rest : List Url) (st : RunState) (u : Url), u ∈ rest → u ∉ seen →
      download u = .ok PdfBytes.malformed →
      (processLoop seen download rest st).2 = false := by
  intro rest
  induction rest with
  | nil => intro st u hu; simp at hu
  | cons v rest ih =>
    intro st u hu hus hbad
    rw [processLoop]
    by_cases hv : v ∈ seen
    · rw [if_pos hv]
      rcases List.mem_cons.mp hu with rfl | hu
      · exact absurd hv hus
      · exact ih _ _ hu hus hbad
    · rw [if_neg hv]
      cases hdlv : download v with
      | error e =>
        simp only
        rcases List.mem_cons.mp hu with rfl | hu
        · rw [hdlv] at hbad; exact absurd hbad (by simp)
        · exact ih _ _ hu hus hbad
      | ok pdf =>
        cases pdf with
        | malformed => simp [extract_callsigns_from_pdf_bytes]
        | doc pages =>
          simp only [extract_callsigns_from_pdf_bytes]
          rcases List.mem_cons.mp hu with rfl | hu
          · rw [hdlv] at hbad
            injection hbad with hbad
            exact absurd hbad (by simp)
          · exact ih _ _ hu hus hbad

theorem dedupKeepFirst_mem : ∀ (l : List Line) (s : Finset Line) (e : Line),
    e ∈ dedupKeepFirst l s ↔ e ∈ l ∧ e ∉ s := by
  intro l
  induction l with
  | nil => intro s e; simp [dedupKeepFirst]
  | cons v rest ih =>
    intro s e
    by_cases hv : v ∈ s
    · rw [dedupKeepFirst, if_pos hv, ih]
      constructor
      · rintro ⟨he, hes⟩
        exact ⟨List.mem_cons_of_mem _ he, hes⟩
      · rintro ⟨he, hes⟩
        rcases List.mem_cons.mp he with rfl | he
        · exact absurd hv hes
        · exact ⟨he, hes⟩
    · rw [dedupKeepFirst, if_neg hv]
      constructor
      · intro he
        rcases List.mem_cons.mp he with rfl | he
        · exact ⟨List.mem_cons_self _ _, hv⟩
        · obtain ⟨h1, h2⟩ := (ih _ _).mp he
          rw [Finset.mem_insert] at h2
          push_neg at h2
          exact ⟨List.mem_cons_of_mem _ h1, h2.2⟩
      · rintro ⟨he, hes⟩
        rcases List.mem_cons.mp he with rfl | he
        · exact List.mem_cons_self _ _
        · by_cases hev : e = v
          · subst hev
            exact List.mem_cons_self _ _
          · refine List.mem_cons_of_mem _ ((ih _ _).mpr ⟨he, ?_⟩)
            rw [Finset.mem_insert]
            push_neg
            exact ⟨hev, hes⟩

theorem dedupKeepFirst_sublist : ∀ (l : List Line) (s : Finset Line),
    List.Sublist (dedupKeepFirst l s) l := by
  intro l
  induction l with
  | nil => intro s; exact List.Sublist.refl _
  | cons v rest ih =>
    intro s
    rw [dedupKeepFirst]
    by_cases hv : v ∈ s
    · rw [if_pos hv]
      exact List.Sublist.cons _ (ih s)
    · rw [if_neg hv]
      exact List.Sublist.cons₂ _ (ih (insert v s))

theorem dedupKeepFirst_nodup : ∀ (l : List Line) (s : Finset Line),
    (dedupKeepFirst l s).Nodup := by
  intro l
  induction l with
  | nil => intro s; exact List.nodup_nil
  | cons v rest ih =>
    intro s
    rw [dedupKeepFirst]
    by_cases hv : v ∈ s
    · rw [if_pos hv]
      exact ih s
    · rw [if_neg hv]
      refine List.nodup_cons.mpr ⟨?_, ih _⟩
      intro hmem
      exact ((dedupKeepFirst_mem _ _ _).mp hmem).2 (Finset.mem_insert_self _ _)

theorem endsWithPdf_append {h : Line} (hp : endsWithPdf h = true) (x : Line) :
    endsWithPdf (x ++ h) = true := by
  unfold endsWithPdf isSuffixB toLowerLine at *
  rw [List.map_append, List.reverse_append]
  exact isPrefixB_append_right _ _ _ hp

theorem collectLinks_mem : ∀ {hrefs : List Line} {e : Line}, e ∈ collectLinks hrefs →
    endsWithPdf e = true ∧ ∃ a ∈ hrefs,
      (startsSlash (trimLine a) = true ∧ e = BASE_URL ++ trimLine a) ∨
        (startsSlash (trimLine a) = false ∧ e = trimLine a) := by
  intro hrefs
  induction hrefs with
  | nil => intro e he; simp [collectLinks] at he
  | cons a rest ih =>
    intro e he
    simp only [collectLinks] at he
    by_cases hpdf : endsWithPdf (trimLine a) = true
    · rw [if_pos hpdf] at he
      rcases List.mem_cons.mp he with rfl | he
      · by_cases hsl : startsSlash (trimLine a) = true
        · rw [if_pos hsl]
          exact ⟨endsWithPdf_append hpdf _, a, List.mem_cons_self _ _, Or.inl ⟨hsl, rfl⟩⟩
        · rw [if_neg hsl]
          simp only [Bool.not_eq_true] at hsl
          exact ⟨hpdf, a, List.mem_cons_self _ _, Or.inr ⟨hsl, rfl⟩⟩
      · obtain ⟨h1, a₂, ha₂, h2⟩ := ih he
        exact ⟨h1, a₂, List.mem_cons_of_mem _ ha₂, h2⟩
    · rw [if_neg hpdf] at he
      obtain ⟨h1, a₂, ha₂, h2⟩ := ih he
      exact ⟨h1, a₂, List.mem_cons_of_mem _ ha₂, h2⟩

theorem mapHashable_strs : ∀ (l : List String),
    mapHashable (l.map fun s => Json.prim (JVal.str s)) = some (l.map JVal.str) := by
  intro l
  induction l with
  | nil => rfl
  | cons s rest ih => simp [mapHashable, ih, asHashable]

theorem toFinset_map_eq_image {α β : Type} [DecidableEq α] [DecidableEq β]
    (f : α → β) : ∀ l : List α, (l.map f).toFinset = l.toFinset.image f := by
  intro l
  induction l with
  | nil => rfl
  | cons a rest ih => simp [ih]

/-- Loading what `save_seen` wrote recovers exactly the saved set (as
string scalars). -/
theorem load_save (s : Finset String) :
    load_seen (some (some (save_seen s))) = s.image JVal.str := by
  unfold load_seen save_seen
  simp only [pyIter]
  rw [mapHashable_strs]
  show (List.map JVal.str (Finset.sort (fun x1 x2 => x1 ≤ x2) s)).toFinset = _
  rw [toFinset_map_eq_image, Finset.sort_toFinset]

/-!
## The claims
-/

/-- Claim C1, counterexample: with an empty seen set, one listed
document and a download oracle that always fails (for example a
timeout), the run completes normally - but the URL is NOT in the seen
set that gets saved, contradicting the claim that a failed download
still marks the document seen. -/
theorem c1_counterexample :
    (process_new_pdfs ∅ [['b']] fun _ => Except.error ()).2 = true ∧
      ['b'] ∉ (process_new_pdfs ∅ [['b']] fun _ => Except.error ()).1.newSeen := by
  decide

/-- Claim C1, amended: if downloading a newly discovered document fails
with a network or status error, `process_new_pdfs` skips the document
for this run and does NOT add its URL to the seen set (the `continue`
on line 119 runs before `new_seen.add` on line 126, so the URL will be
retried on a later run); the failure is caught locally, so - provided no
other document crashes extraction - the run still completes normally and
saves the seen set. -/
theorem c1_amended_download_failure_not_marked_seen
    (seen : Finset Url) (pdfs : List Url) (download : Url → Except Unit PdfBytes)
    (u : Url) (_hu : u ∈ pdfs) (hus : u ∉ seen) (hfail : download u = .error ())
    (hok : ∀ v ∈ pdfs, v ∉ seen → download v ≠ .ok PdfBytes.malformed) :
    (process_new_pdfs seen pdfs download).2 = true ∧
      u ∉ (process_new_pdfs seen pdfs download).1.newSeen := by
  constructor
  · exact processLoop_done seen download pdfs _ hok
  · intro hmem
    obtain ⟨-, hnew, -, -⟩ :=
      processLoop_inv seen download pdfs ⟨seen, [], [], []⟩
        (process_new_pdfs seen pdfs download).1 (process_new_pdfs seen pdfs download).2 rfl
    rcases hnew u hmem with h | ⟨-, -, pages, hp⟩
    · exact hus h
    · rw [hfail] at hp
      exact absurd hp (by simp)

/-- Claim C1, witness for the amended statement at a concrete input. -/
theorem c1_witness :
    (process_new_pdfs ∅ [['b'], ['c']]
        fun u => if u = ['b'] then Except.error () else Except.ok (PdfBytes.doc [])).2
        = true ∧
      ['b'] ∉ (process_new_pdfs ∅ [['b'], ['c']]
        fun u => if u = ['b'] then Except.error () else Except.ok (PdfBytes.doc [])).1.newSeen :=
  c1_amended_download_failure_not_marked_seen ∅ [['b'], ['c']]
    (fun u => if u = ['b'] then Except.error () else Except.ok (PdfBytes.doc []))
    ['b'] (by decide) (by decide) rfl
    (by intro v hv hvs hbad; fin_cases hv <;> simp at hbad)

/-- Claim C2, code bug witnessed on the code: the marker-line test on
source line 94 is the substring test `"VIDP" in line.upper()`, although
the whole-word pattern `pattern_vidp = re.compile(r"\bVIDP\b")` is
compiled on line 86 and never used.  A line consisting only of
`NAVIDPOINT` (where `VIDP` occurs only inside a longer word) does fire
the marker test and contributes the neighbouring `AB123` to the result
set, contrary to the claim that such a line contributes no matches. -/
theorem c2_substring_marker_eval :
    containsVIDPsub ("NAVIDPOINT".data) = true ∧
      ['V', 'I', 'D', 'P'] ∉ wordsOf (pyUpperLine "NAVIDPOINT".data) ∧
      extract_callsigns_pages [["NAVIDPOINT".data, "AB123".data]] = {"AB123".data} := by
  refine ⟨by decide, by decide, by decide⟩

/-- Claim C3, counterexample: with an empty seen set and two listed
documents, if the first one downloads to bytes that are not a
well-formed PDF, the extraction exception is not caught: the run aborts
(`save_seen` is never reached), the document is not marked seen, and the
second document is never even downloaded - contradicting the claim that
a parse failure is treated like "no callsigns found" with the run
continuing. -/
theorem c3_counterexample :
    (process_new_pdfs ∅ [['a'], ['b']]
        fun u => if u = ['a'] then Except.ok PdfBytes.malformed
          else Except.ok (PdfBytes.doc [])).2 = false ∧
      ['a'] ∉ (process_new_pdfs ∅ [['a'], ['b']]
        fun u => if u = ['a'] then Except.ok PdfBytes.malformed
          else Except.ok (PdfBytes.doc [])).1.newSeen ∧
      ['b'] ∉ (process_new_pdfs ∅ [['a'], ['b']]
        fun u => if u = ['a'] then Except.ok PdfBytes.malformed
          else Except.ok (PdfBytes.doc [])).1.downloaded := by
  decide

/-- Claim C3, amended: extraction of a newly discovered document whose
bytes are not a well-formed PDF raises out of `process_new_pdfs`
(line 120 has no exception handler): the run terminates before
`save_seen`, the document is not added to the seen set, and the
remaining documents are not processed. -/
theorem c3_amended_parse_failure_aborts_run
    (seen : Finset Url) (pdfs : List Url) (download : Url → Except Unit PdfBytes)
    (u : Url) (hu : u ∈ pdfs) (hus : u ∉ seen)
    (hbad : download u = .ok PdfBytes.malformed) :
    (process_new_pdfs seen pdfs download).2 = false ∧
      u ∉ (process_new_pdfs seen pdfs download).1.newSeen := by
  constructor
  · exact processLoop_crash seen download pdfs _ u hu hus hbad
  · intro hmem
    obtain ⟨-, hnew, -, -⟩ :=
      processLoop_inv seen download pdfs ⟨seen, [], [], []⟩
        (process_new_pdfs seen pdfs download).1 (process_new_pdfs seen pdfs download).2 rfl
    rcases hnew u hmem with h | ⟨-, -, pages, hp⟩
    · exact hus h
    · rw [hbad] at hp
      injection hp with hp
      simp at hp

/-- Claim C3, witness for the amended statement at a concrete input. -/
theorem c3_witness :
    (process_new_pdfs ∅ [['a']] fun _ => Except.ok PdfBytes.malformed).2 = false ∧
      ['a'] ∉ (process_new_pdfs ∅ [['a']]
        fun _ => Except.ok PdfBytes.malformed).1.newSeen :=
  c3_amended_parse_failure_aborts_run ∅ [['a']] (fun _ => Except.ok PdfBytes.malformed)
    ['a'] (by decide) (by decide) rfl

/-- Claim C4, counterexample: `AB1` has the claimed shape (2-3 uppercase
letters, ONE to four digits, optional trailing letter) and occurs as a
whole word in a marker window, yet the code's pattern
`[A-Z]{2,3}\d{2,4}[A-Z]?` requires at least TWO digits, so the token is
not accepted and the extractor returns the empty set. -/
theorem c4_counterexample :
    specCallsignShape ("AB1".data) = true ∧
      "AB1".data ∈ wordsOf ("VIDP AB1".data) ∧
      "AB1".data ∉ reFindall ("VIDP AB1".data) ∧
      extract_callsigns_pages [["VIDP AB1".data]] = ∅ := by
  refine ⟨by decide, by decide, by decide, by decide⟩

/-- Claim C4, amended: a token is matched by the callsign pattern of
`extract_callsigns_from_pdf_bytes` (source line 85) if and only if it is
a whole word (word boundaries on both sides) consisting of two or three
uppercase letters, followed by TWO to four digits, followed by an
optional trailing uppercase letter; every such whole word of the
scanned string is collected and nothing else is. -/
theorem c4_amended_match_iff (s t : Line) :
    t ∈ reFindall s ↔ t ∈ wordsOf s ∧ callsignShape t = true := by
  rw [reFindall_eq_filter]
  exact List.mem_filter

/-- Claim C4, witness for the amended statement at a concrete input. -/
theorem c4_witness :
    "AB12".data ∈ reFindall ("x AB12".data) :=
  (c4_amended_match_iff ("x AB12".data) ("AB12".data)).mpr ⟨by decide, by decide⟩

/-- Claim C5 (confirmed): for every page in which some line contains the
marker as a standalone (whole-word, case-insensitive) token, the
extractor builds the window of lines `i-2 .. i+2` clamped to the page,
joins it with single spaces and keeps every non-overlapping pattern
match; hence every callsign-shaped whole word within two lines of the
marker line is contained in the extractor's result set. -/
theorem c5_window_completeness (pages : List (List Line)) (pg : List Line)
    (hpg : pg ∈ pages) (i k : Nat) (hi : i < pg.length) (hk : k < pg.length)
    (h1 : i ≤ k + 2) (h2 : k ≤ i + 2)
    (hm : ['V', 'I', 'D', 'P'] ∈ wordsOf (pyUpperLine pg[i]))
    (t : Line) (ht : t ∈ wordsOf pg[k]) (hs : callsignShape t = true) :
    t ∈ extract_callsigns_pages pages :=
  extract_complete hpg hi hk h1 h2 hm ht hs

/-- Claim C5, witness at a concrete input: the marker is on line 0, the
callsign one line below. -/
theorem c5_witness :
    "AB12".data ∈ extract_callsigns_pages [["VIDP".data, "AB12".data]] :=
  c5_window_completeness [["VIDP".data, "AB12".data]] ["VIDP".data, "AB12".data]
    (by decide) 0 1 (by decide) (by decide) (by decide) (by decide) (by decide)
    ("AB12".data) (by decide) (by decide)

/-- Claim C6 (confirmed): seen-set persistence round-trips - loading
what `save_seen` wrote recovers exactly the saved set of strings
(sorting changes only the order, and sets are order-independent), so
saving the loaded set rewrites an equivalent set; and `load_seen`
returns the empty set, without raising, both when the file is missing
and when its content fails to parse. -/
theorem c6_roundtrip_and_corrupt_empty :
    (∀ s : Finset String, load_seen (some (some (save_seen s))) = s.image JVal.str) ∧
      load_seen none = ∅ ∧ load_seen (some none) = ∅ :=
  ⟨load_save, rfl, rfl⟩

/-- Claim C7 (confirmed): a URL already in the loaded seen set is
skipped by the `if pdf_url in seen: continue` test: it is never
requested and never passed to the extractor during the run, and the
in-memory seen set only grows, so whatever gets saved still contains
every loaded element. -/
theorem c7_seen_never_reprocessed
    (seen : Finset Url) (pdfs : List Url) (download : Url → Except Unit PdfBytes)
    (u : Url) (hu : u ∈ seen) :
    u ∉ (process_new_pdfs seen pdfs download).1.downloaded ∧
      u ∉ (process_new_pdfs seen pdfs download).1.extracted ∧
      seen ⊆ (process_new_pdfs seen pdfs download).1.newSeen := by
  obtain ⟨hsub, -, hdl, hex⟩ :=
    processLoop_inv seen download pdfs ⟨seen, [], [], []⟩
      (process_new_pdfs seen pdfs download).1 (process_new_pdfs seen pdfs download).2 rfl
  refine ⟨?_, ?_, hsub⟩
  · intro hmem
    rcases hdl u hmem with h | ⟨-, hs⟩
    · simp at h
    · exact hs hu
  · intro hmem
    rcases hex u hmem with h | ⟨-, hs⟩
    · simp at h
    · exact hs hu

/-- Claim C7, witness at a concrete input. -/
theorem c7_witness :
    ['a'] ∉ (process_new_pdfs {['a']} [['a'], ['b']]
        fun _ => Except.ok (PdfBytes.doc [])).1.downloaded ∧
      ['a'] ∉ (process_new_pdfs {['a']} [['a'], ['b']]
        fun _ => Except.ok (PdfBytes.doc [])).1.extracted ∧
      {['a']} ⊆ (process_new_pdfs {['a']} [['a'], ['b']]
        fun _ => Except.ok (PdfBytes.doc [])).1.newSeen :=
  c7_seen_never_reprocessed {['a']} [['a'], ['b']]
    (fun _ => Except.ok (PdfBytes.doc [])) ['a'] (by decide)

/-- Claim C8, counterexample: the href `docs/a.pdf` is a relative link
(it neither starts with `/` nor carries a scheme), ends in the PDF
extension and therefore survives the filter - but `find_pdf_links`
returns it verbatim: it is not resolved against the base origin,
contradicting the claim that every relative link is resolved. -/
theorem c8_counterexample :
    find_pdf_links ["docs/a.pdf".data] = ["docs/a.pdf".data] ∧
      startsSlash ("docs/a.pdf".data) = false ∧
      isPrefixB BASE_URL ("docs/a.pdf".data) = false ∧
      isInfixB ("://".data) ("docs/a.pdf".data) = false := by
  refine ⟨by decide, by decide, by decide, by decide⟩

/-- Claim C8, amended: `find_pdf_links` returns the stripped hrefs whose
lowercasing ends in `.pdf`, de-duplicated (no duplicates, order and
membership of the first pass preserved); every element ends in the PDF
extension case-insensitively, and every element is either a
root-relative href (starting with `/`) prefixed with the base origin, or
any other href kept verbatim - other relative paths are NOT resolved. -/
theorem c8_amended_listing (hrefs : List Line) :
    (find_pdf_links hrefs).Nodup ∧
      List.Sublist (find_pdf_links hrefs) (collectLinks hrefs) ∧
      (∀ e, e ∈ find_pdf_links hrefs ↔ e ∈ collectLinks hrefs) ∧
      (∀ e ∈ find_pdf_links hrefs, endsWithPdf e = true ∧
        ∃ a ∈ hrefs, (startsSlash (trimLine a) = true ∧ e = BASE_URL ++ trimLine a) ∨
          (startsSlash (trimLine a) = false ∧ e = trimLine a)) := by
  refine ⟨dedupKeepFirst_nodup _ _, dedupKeepFirst_sublist _ _, ?_, ?_⟩
  · intro e
    unfold find_pdf_links
    rw [dedupKeepFirst_mem]
    simp
  · intro e he
    have hmem : e ∈ collectLinks hrefs := by
      unfold find_pdf_links at he
      exact ((dedupKeepFirst_mem _ _ _).mp he).1
    exact collectLinks_mem hmem

/-- Claim C8, witness for the amended statement at a concrete input. -/
theorem c8_witness :
    (find_pdf_links [" /x.pdf ".data, "docs/a.pdf".data]).Nodup ∧
      List.Sublist (find_pdf_links [" /x.pdf ".data, "docs/a.pdf".data])
        (collectLinks [" /x.pdf ".data, "docs/a.pdf".data]) ∧
      (∀ e, e ∈ find_pdf_links [" /x.pdf ".data, "docs/a.pdf".data] ↔
        e ∈ collectLinks [" /x.pdf ".data, "docs/a.pdf".data]) ∧
      (∀ e ∈ find_pdf_links [" /x.pdf ".data, "docs/a.pdf".data],
        endsWithPdf e = true ∧
        ∃ a ∈ [" /x.pdf ".data, "docs/a.pdf".data],
          (startsSlash (trimLine a) = true ∧ e = BASE_URL ++ trimLine a) ∨
            (startsSlash (trimLine a) = false ∧ e = trimLine a)) :=
  c8_amended_listing [" /x.pdf ".data, "docs/a.pdf".data]

/-- Claim C9, counterexample: with all three credentials present, a
nonempty alert list and a failing SMTP transport, `send_email` raises
(there is no handler around the SMTP session, lines 51-55), so `main`
terminates with an uncaught exception instead of "reporting failure
without raising" - although the seen set was already persisted, because
`save_seen` ran inside `process_new_pdfs` before the notification. -/
theorem c9_counterexample :
    (mainRun ∅ [['u']] (fun _ => Except.ok (PdfBytes.doc [["VIDP AB12".data]]))
        (some "u") (some "p") (some "t") false).crashed = true ∧
      (mainRun ∅ [['u']] (fun _ => Except.ok (PdfBytes.doc [["VIDP AB12".data]]))
        (some "u") (some "p") (some "t") false).saved = some {['u']} := by
  refine ⟨by decide, by decide⟩

/-- Claim C9, amended: if any of the three email credentials is unset
(or empty), `send_email` prints and returns without raising, so the run
completes normally with no email; if instead delivery fails with
credentials present, the SMTP exception propagates and the run
terminates abnormally - but in every case in which `process_new_pdfs`
completed, the updated seen set was already persisted before the
notification step, and no re-delivery is attempted. -/
theorem c9_amended_notifier
    (seen : Finset Url) (pdfs : List Url) (download : Url → Except Unit PdfBytes)
    (username password toAddr : Option String) (deliver : Bool)
    (hdone : (process_new_pdfs seen pdfs download).2 = true) :
    ((pyFalsy username || pyFalsy password || pyFalsy toAddr) = true →
        (mainRun seen pdfs download username password toAddr deliver).crashed = false ∧
          (mainRun seen pdfs download username password toAddr deliver).emailed = false) ∧
      (mainRun seen pdfs download username password toAddr deliver).saved =
        some (process_new_pdfs seen pdfs download).1.newSeen := by
  rcases hproc : process_new_pdfs seen pdfs download with ⟨st, done⟩
  rw [hproc] at hdone
  have hd : done = true := hdone
  subst hd
  simp only [mainRun, hproc]
  constructor
  · intro hcreds
    by_cases halerts : st.alerts.isEmpty
    · rw [if_pos halerts]
      exact ⟨rfl, rfl⟩
    · rw [if_neg halerts]
      unfold send_email
      rw [if_pos hcreds]
      exact ⟨rfl, rfl⟩
  · by_cases halerts : st.alerts.isEmpty
    · rw [if_pos halerts]
    · rw [if_neg halerts]
      cases send_email username password toAddr deliver with
      | ok sent => rfl
      | error e => rfl

/-- Claim C9, witness for the amended statement at a concrete input
(missing recipient, delivery flag irrelevant). -/
theorem c9_witness :
    ((mainRun ∅ [['u']] (fun _ => Except.ok (PdfBytes.doc [["VIDP AB12".data]]))
        (some "u") (some "p") none true).crashed = false ∧
      (mainRun ∅ [['u']] (fun _ => Except.ok (PdfBytes.doc [["VIDP AB12".data]]))
        (some "u") (some "p") none true).emailed = false) ∧
      (mainRun ∅ [['u']] (fun _ => Except.ok (PdfBytes.doc [["VIDP AB12".data]]))
        (some "u") (some "p") none true).saved =
        some (process_new_pdfs ∅ [['u']]
          (fun _ => Except.ok (PdfBytes.doc [["VIDP AB12".data]]))).1.newSeen := by
  have h := c9_amended_notifier ∅ [['u']]
    (fun _ => Except.ok (PdfBytes.doc [["VIDP AB12".data]]))
    (some "u") (some "p") none true (by decide)
  exact ⟨h.1 (by decide), h.2⟩

/-- Claim C10, counterexample: the empty JSON string is syntactically
valid non-array JSON and is iterable, yet `load_seen` returns the empty
set on it - so "load_seen does not return the empty set" fails, and
"only a parse error or a non-iterable value yields the empty set" fails
too. -/
theorem c10_counterexample :
    load_seen (some (some (Json.prim (JVal.str "")))) = ∅ ∧
      pyIter (Json.prim (JVal.str "")) = some [] :=
  ⟨by decide, rfl⟩

/-- Claim C10, amended: on a file whose content parses to a JSON value
that is not an array, `load_seen` returns the set obtained by iterating
the value - the set of the string's one-character substrings (empty
exactly for the empty string), or the set of the object's keys - while
numbers, booleans and null (not iterable) yield the empty set. -/
theorem c10_amended_load_iterates :
    (∀ s : String, load_seen (some (some (Json.prim (JVal.str s)))) =
        (s.data.map fun c => JVal.str (String.mk [c])).toFinset) ∧
      (∀ kvs : List (String × Json), load_seen (some (some (Json.obj kvs))) =
        (kvs.map fun kv => JVal.str kv.1).toFinset) ∧
      (∀ n : Int, load_seen (some (some (Json.prim (JVal.num n)))) = ∅) ∧
      (∀ b : Bool, load_seen (some (some (Json.prim (JVal.bool b)))) = ∅) ∧
      load_seen (some (some (Json.prim JVal.null))) = ∅ := by
  refine ⟨?_, ?_, fun n => rfl, fun b => rfl, rfl⟩
  · intro s
    unfold load_seen
    simp only [pyIter]
    have h1 : s.data.map (fun c => Json.prim (JVal.str (String.mk [c]))) =
        (s.data.map fun c => String.mk [c]).map fun t => Json.prim (JVal.str t) := by
      rw [List.map_map]; rfl
    rw [h1, mapHashable_strs]
    show (List.map JVal.str (s.data.map fun c => String.mk [c])).toFinset = _
    rw [List.map_map]; rfl
  · intro kvs
    unfold load_seen
    simp only [pyIter]
    have h1 : kvs.map (fun kv => Json.prim (JVal.str kv.1)) =
        (kvs.map fun kv => kv.1).map fun t => Json.prim (JVal.str t) := by
      rw [List.map_map]; rfl
    rw [h1, mapHashable_strs]
    show (List.map JVal.str (kvs.map fun kv => kv.1)).toFinset = _
    rw [List.map_map]; rfl

/-- Claim C10, witness for the amended statement at a concrete input. -/
theorem c10_witness :
    load_seen (some (some (Json.prim (JVal.str "ab")))) =
      {JVal.str "a", JVal.str "b"} :=
  (c10_amended_load_iterates.1 "ab").trans (by decide)
